import Mathlib

/-!
Verification of the Memory & Context Assembly Engine of the
Character-Chat repository.

The memory engine is specified by the design document
`src/unnamed/part_013` (Python pseudocode for `assemble_context` and
`calculate_memory_relevance`, MongoDB schemas, summarization prompts)
and, on the front end, by `src/frontend/src/stores/chat-store.ts`.
This file shallowly embeds those definitions and proves, or refutes,
the documented properties.  External effects (the embedding backend,
the LLM used for summarization/extraction, the wall clock) are passed
in as explicit function parameters.
-/

/-! ## Data model (design doc §MongoDB Schemas, `memories` collection) -/

/-- The closed set of memory kinds: `"fact" | "preference" | "emotion" | "event"`. -/
inductive MemKind where
  | fact
  | preference
  | emotion
  | event
deriving DecidableEq, Repr

/-- A row of the `memories` collection.  The stored embedding vector is not
carried here: semantic similarity enters through an explicit oracle
`sem : String → String → ℝ` standing for
`cosine_similarity(embed ·, embed ·)`.  Timestamps are integer seconds;
`importance` is the float in `[0,1]` of the schema, modelled as a rational. -/
structure Memory where
  id : ℕ
  user_id : String
  character_name : String
  kind : MemKind
  content : String
  importance : ℚ
  access_count : ℕ
  last_accessed : ℤ
  created_at : ℤ
  source_session_id : String
  source_message_id : String
deriving DecidableEq, Repr

/-- Python's `(current_time - memory.last_accessed).days`: the timedelta `days`
field floors toward minus infinity, which is `Int.fdiv` by the number of
seconds in a day. -/
def daysOld (current_time last_accessed : ℤ) : ℤ :=
  Int.fdiv (current_time - last_accessed) 86400

/-- `calculate_memory_relevance` from the design doc (part_013 lines 287-311):
semantic similarity, recency decay with a 7-day half-life, importance, and an
access-frequency boost, combined with weights 0.4 / 0.2 / 0.3 / 0.1. -/
noncomputable def calculate_memory_relevance (sem : String → String → ℝ)
    (memory : Memory) (current_query : String) (current_time : ℤ) : ℝ :=
  let semantic_score : ℝ := sem memory.content current_query
  let days_old : ℤ := daysOld current_time memory.last_accessed
  let recency_score : ℝ := (0.5 : ℝ) ^ ((days_old : ℝ) / 7)
  let importance_score : ℝ := (memory.importance : ℝ)
  let frequency_boost : ℝ := min ((memory.access_count : ℝ) / 10) 1.0
  semantic_score * 0.4 +
    recency_score * 0.2 +
    importance_score * 0.3 +
    frequency_boost * 0.1

/-- The ranking formula exactly as the spec words it (§4.1):
`score = 0.4·semantic + 0.2·recency + 0.3·importance + 0.1·frequency`
with `recency = 0.5^(age_days / 7)` and `frequency = min(access_count/10, 1)`.
Stated separately from `calculate_memory_relevance` so the two can be
compared. -/
noncomputable def relevance_spec (sem : String → String → ℝ)
    (memory : Memory) (query : String) (now : ℤ) : ℝ :=
  0.4 * sem memory.content query +
    0.2 * ((0.5 : ℝ) ^ (((daysOld now memory.last_accessed) : ℝ) / 7)) +
    0.3 * (memory.importance : ℝ) +
    0.1 * min ((memory.access_count : ℝ) / 10) 1

/-! ## Context assembly (design doc §Context Assembly Algorithm) -/

/-- A message of the short-term buffer: `{role, content, timestamp, tokens}`
per the `sessions` collection schema. -/
structure BufMsg where
  role : String
  content : String
  timestamp : ℤ
  tokens : ℕ
deriving DecidableEq, Repr

/-- One labeled section of the assembled context bundle
(`{label, text, token_count}` as handed to the inference backend). -/
structure ContextSection where
  label : String
  text : String
  token_count : ℕ
deriving DecidableEq, Repr

/-- The stored state `assemble_context` reads: the character profile, the
formatted user-entity profile, the optional last-session summary, the
formatted retrieved memories, the working-memory summary (each as text plus
its actual token count), the open session's message count, and the raw
message buffer.  The pseudocode obtains these through
`get_character_profile`, `get_user_entities`/`format_user_profile`,
`get_last_session_summary`, `semantic_search`/`format_memories` and
`get_working_memory`; their token costs are data of the snapshot, not
enforced by the assembler. -/
structure AssembleEnv where
  profile_text : String
  profile_tokens : ℕ
  user_profile_text : String
  user_profile_tokens : ℕ
  last_session : Option (String × ℕ)
  memories_text : String
  memories_tokens : ℕ
  working_memory_text : String
  working_memory_tokens : ℕ
  session_message_count : ℕ
  buffer : List BufMsg
deriving DecidableEq, Repr

/-- Take messages from the front of a (most-recent-first) list while their
token counts fit in the budget, stopping at the first message that does
not fit. -/
def takeWithinBudget : List BufMsg → ℕ → List BufMsg
  | [], _ => []
  | m :: rest, b =>
      if m.tokens ≤ b then m :: takeWithinBudget rest (b - m.tokens) else []

/-- Modelled from the spec: the body of `get_recent_messages` is not under
`src/` — the pseudocode only passes it `max_tokens=token_budget`, and §4.2
item 6 says the raw buffer section fills "whatever budget remains".  It
returns the most recent messages whose token counts fit within
`max_tokens`, in chronological order. -/
def get_recent_messages (buffer : List BufMsg) (max_tokens : ℕ) : List BufMsg :=
  (takeWithinBudget buffer.reverse max_tokens).reverse

/-- Total token count of a list of raw messages. -/
def bufferTokens (l : List BufMsg) : ℕ := (l.map (fun m => m.tokens)).sum

/-- `format_messages`: concatenation of the buffered message contents. -/
def formatMessages (l : List BufMsg) : String :=
  String.intercalate "\n" (l.map (fun m => m.content))

/-- `assemble_context` from the design doc (part_013 lines 82-124), step by
step: a fixed internal budget of 4000 tokens; the character profile and the
user-entity profile always appended (reserving 500 and 200 tokens); the
last-session summary appended when present (reserving 200); the retrieved
memories appended (reserving 300); the working-memory summary appended only
when `session_message_count > 10` (reserving 300); finally the recent
message buffer capped by the remaining budget.  No `token_budget` parameter
exists and no section is truncated. -/
def assemble_context (env : AssembleEnv) : List ContextSection :=
  let budget0 : ℕ := 4000
  let s1 : ContextSection := ⟨"character_profile", env.profile_text, env.profile_tokens⟩
  let budget1 := budget0 - 500
  let s2 : ContextSection := ⟨"user_profile", env.user_profile_text, env.user_profile_tokens⟩
  let budget2 := budget1 - 200
  let step3 : List ContextSection × ℕ :=
    match env.last_session with
    | some ts => ([⟨"last_session", "Last conversation: " ++ ts.1, ts.2⟩], budget2 - 200)
    | none => ([], budget2)
  let budget3 := step3.2
  let s4 : ContextSection := ⟨"memories", env.memories_text, env.memories_tokens⟩
  let budget4 := budget3 - 300
  let step5 : List ContextSection × ℕ :=
    if 10 < env.session_message_count then
      ([⟨"working_memory", "Conversation so far: " ++ env.working_memory_text,
          env.working_memory_tokens⟩], budget4 - 300)
    else ([], budget4)
  let budget5 := step5.2
  let recent := get_recent_messages env.buffer budget5
  let s6 : ContextSection := ⟨"recent_messages", formatMessages recent, bufferTokens recent⟩
  [s1, s2] ++ step3.1 ++ [s4] ++ step5.1 ++ [s6]

/-- Total token count of an assembled bundle. -/
def totalTokens (bundle : List ContextSection) : ℕ :=
  (bundle.map (fun s => s.token_count)).sum

/-- A snapshot whose character profile alone weighs 5000 tokens; every other
source is empty. -/
def envC1 : AssembleEnv :=
  ⟨"big persona", 5000, "", 0, none, "", 0, "", 0, 0, []⟩

/-- A snapshot with all sources empty. -/
def envC1w : AssembleEnv :=
  ⟨"", 0, "", 0, none, "", 0, "", 0, 0, []⟩

/-- A snapshot whose character profile alone weighs 4500 tokens, over the
whole 4000-token budget; every other source is empty. -/
def envC4 : AssembleEnv :=
  ⟨"oversized persona", 4500, "", 0, none, "", 0, "", 0, 0, []⟩

/-- A snapshot of an open session with 12 messages sent so far. -/
def envC5 : AssembleEnv :=
  ⟨"p", 10, "u", 10, none, "m", 10, "w", 10, 12, []⟩

/-- C2: for every memory, query and time, the score returned by the code's
`calculate_memory_relevance` equals the spec formula
`0.4·semantic + 0.2·recency + 0.3·importance + 0.1·frequency`, with
`recency = 0.5^(age_days/7)` measured from `last_accessed` and
`frequency = min(access_count/10, 1)`. -/
theorem C2_relevance_formula (sem : String → String → ℝ)
    (memory : Memory) (query : String) (now : ℤ) :
    calculate_memory_relevance sem memory query now =
      relevance_spec sem memory query now := by
  unfold calculate_memory_relevance relevance_spec
  norm_num
  ring

/-! ## Extraction pipeline (design doc §Memory Extraction Pipeline) -/

/-- One completed exchange handed to the extraction pipeline. -/
structure Exchange where
  user_message : String
  assistant_message : String
  message_id : String
deriving DecidableEq, Repr

/-- Does `x` carry the same dedup key `(source_message_id, content_hash)` as
`m`?  `h` is the content-hash function. -/
def keyMatches (h : String → ℕ) (m x : Memory) : Bool :=
  x.source_message_id == m.source_message_id && h x.content == h m.content

/-- Is a row with `m`'s dedup key already in the store? -/
def hasKey (h : String → ℕ) (store : List Memory) (m : Memory) : Bool :=
  store.any (keyMatches h m)

/-- Modelled from the spec: the extraction/persistence code (`extraction.py`,
`repository.py`) is not under `src/` — only the pipeline diagram and the
extraction prompt are.  Spec §4.4 and §7: deduplication is keyed on
`(source_message_id, content_hash)` and a `DuplicateExtraction` is silently
skipped, so an insert whose key is already present leaves the store
unchanged. -/
def insertMemory (h : String → ℕ) (store : List Memory) (m : Memory) : List Memory :=
  if hasKey h store m then store else store ++ [m]

/-- Modelled from the spec: `extract(session, latest_exchange)` derives new
Memory rows from the exchange (the LLM-backed derivation is the oracle `mk`,
a function of the exchange alone, so identical exchanges with the same
source identifiers derive identical rows) and writes them through the
deduplicating insert. -/
def extract (h : String → ℕ) (mk : Exchange → List Memory)
    (store : List Memory) (e : Exchange) : List Memory :=
  (mk e).foldl (insertMemory h) store

/-! ## Relevance ranking order (spec §4.1) -/

/-- Modelled from the spec: the ranker's ordering code is not under `src/` —
the design doc only gives the score function.  Spec §4.1: memories are
ordered by score descending, ties broken by `created_at` descending (newer
wins), then by `id` for determinism.  `rankRel a b` says `a` may precede
`b`. -/
def rankRel {α : Type} [LinearOrder α] (score : Memory → α) (a b : Memory) : Prop :=
  score b < score a ∨
    (score a = score b ∧
      (b.created_at < a.created_at ∨
        (a.created_at = b.created_at ∧ a.id ≤ b.id)))

instance {α : Type} [LinearOrder α] (score : Memory → α) :
    DecidableRel (rankRel score) := fun a b => by
  unfold rankRel; exact inferInstance

instance {α : Type} [LinearOrder α] (score : Memory → α) :
    IsTotal Memory (rankRel score) where
  total a b := by
    rcases lt_trichotomy (score a) (score b) with h | h | h
    · exact Or.inr (Or.inl h)
    · rcases lt_trichotomy a.created_at b.created_at with hc | hc | hc
      · exact Or.inr (Or.inr ⟨h.symm, Or.inl hc⟩)
      · rcases Nat.le_total a.id b.id with hid | hid
        · exact Or.inl (Or.inr ⟨h, Or.inr ⟨hc, hid⟩⟩)
        · exact Or.inr (Or.inr ⟨h.symm, Or.inr ⟨hc.symm, hid⟩⟩)
      · exact Or.inl (Or.inr ⟨h, Or.inl hc⟩)
    · exact Or.inl (Or.inl h)

instance {α : Type} [LinearOrder α] (score : Memory → α) :
    IsTrans Memory (rankRel score) where
  trans a b c h1 h2 := by
    rcases h1 with h1 | ⟨e1, h1'⟩ <;> rcases h2 with h2 | ⟨e2, h2'⟩
    · exact Or.inl (lt_trans h2 h1)
    · exact Or.inl (e2 ▸ h1)
    · exact Or.inl (lt_of_lt_of_eq h2 e1.symm)
    · refine Or.inr ⟨e1.trans e2, ?_⟩
      rcases h1' with hc | ⟨ec, hid⟩ <;> rcases h2' with hc' | ⟨ec', hid'⟩ <;> omega

/-- Modelled from the spec: the ranked retrieval order, an insertion sort of
the memory set under `rankRel`. -/
def rankMemories {α : Type} [LinearOrder α] (score : Memory → α)
    (ms : List Memory) : List Memory :=
  List.insertionSort (rankRel score) ms

/-- A constant score function: every memory ties. -/
def scoreC6 : Memory → ℤ := fun _ => 0

/-- A memory created at time 0. -/
def memC6a : Memory := ⟨0, "u", "batman", .fact, "likes tea", 0, 0, 0, 0, "s1", "m1"⟩

/-- A memory identical to `memC6a` for scoring purposes but created one day
later. -/
def memC6b : Memory := ⟨1, "u", "batman", .fact, "likes tea", 0, 0, 0, 86400, "s1", "m2"⟩

/-! ## Working-memory summarizer (design doc §Summarization Strategy) -/

/-- The open session as the summarizer sees it: message count, the count at
the last summary rewrite, the working memory as a list of words, and the
transcript message contents. -/
structure WSession where
  message_count : ℕ
  lastSummarizedAt : ℕ
  working_memory : List String
  messages : List String
deriving DecidableEq, Repr

/-- The last `n` elements of a list. -/
def lastN (n : ℕ) (l : List String) : List String := l.drop (l.length - n)

/-- Modelled from the spec: `summarization.py` is not under `src/` — the
design doc gives only the update prompt ("Previous summary: {working_memory}
/ New messages: {last_5_messages} / ... Keep it under 100 words").  Spec
§4.3: `maybeUpdate` no-ops unless `message_count - lastSummarizedAt ≥ 5`;
otherwise the LLM (oracle `llm`) folds the previous working memory together
with the last five messages into a new summary, bounded to 100 words. -/
def maybeUpdate (llm : List String → List String → List String)
    (s : WSession) : WSession :=
  if s.message_count - s.lastSummarizedAt < 5 then s
  else
    { s with
      working_memory := (llm s.working_memory (lastN 5 s.messages)).take 100,
      lastSummarizedAt := s.message_count }

/-- A summarizer oracle that concatenates its inputs. -/
def llmC7 : List String → List String → List String := fun prev recent => prev ++ recent

/-- A session five or more messages past its last summary. -/
def sC7fire : WSession := ⟨7, 0, ["prev"], ["m1", "m2", "m3", "m4", "m5", "m6", "m7"]⟩

/-- A session fewer than five messages past its last summary. -/
def sC7noop : WSession := ⟨7, 5, ["prev"], ["m1", "m2", "m3", "m4", "m5", "m6", "m7"]⟩

/-! ## Front-end chat session (`chat-store.ts`) -/

/-- A `ChatMessage` of the front-end store. -/
structure CMsg where
  role : String
  content : String
  timestamp : ℕ
  character_name : String
deriving DecidableEq, Repr

/-- A `ChatSession` of the front-end store. -/
structure FSession where
  characterId : String
  characterName : String
  sessionId : String
  messages : List CMsg
  lastActivity : ℕ
  memoriesUsed : ℕ
  tokensUsed : ℕ
  isNewSession : Bool
deriving DecidableEq, Repr

/-- `sendMessage`, first half (chat-store.ts lines 110-128): the user message
is appended at the end of `messages` with the current clock time `t`. -/
def appendUserMessage (s : FSession) (message charName : String) (t : ℕ) : FSession :=
  { s with
    messages := s.messages ++ [⟨"user", message, t, charName⟩],
    lastActivity := t }

/-- `sendMessage`, completion callback (chat-store.ts lines 145-172): the
streamed assistant message is appended at the end with the clock time `t`;
session id and usage counters fall back to the prior values when the `done`
payload omits them. -/
def completeAssistantMessage (s : FSession) (content charName : String) (t : ℕ)
    (done_session_id : Option String) (done_memories done_tokens : Option ℕ) :
    FSession :=
  { s with
    sessionId := done_session_id.getD s.sessionId,
    messages := s.messages ++ [⟨"assistant", content, t, charName⟩],
    lastActivity := t,
    memoriesUsed := done_memories.getD s.memoriesUsed,
    tokensUsed := done_tokens.getD s.tokensUsed,
    isNewSession := false }

/-- One full `sendMessage` round trip: append the user message at clock time
`t1`, then the assistant message at clock time `t2`. -/
def sendMessage (s : FSession) (message streamed charName : String) (t1 t2 : ℕ)
    (done_session_id : Option String) (done_memories done_tokens : Option ℕ) :
    FSession :=
  completeAssistantMessage (appendUserMessage s message charName t1)
    streamed charName t2 done_session_id done_memories done_tokens

/-- Timestamp order on chat messages. -/
def tsLE (a b : CMsg) : Prop := a.timestamp ≤ b.timestamp

/-- A fresh front-end session with no messages. -/
def sC8 : FSession := ⟨"batman", "Batman", "session_1", [], 0, 0, 0, true⟩

/-! ## Concrete scoring inputs -/

/-- A semantic-similarity oracle that returns 0 for every pair. -/
noncomputable def semC10 : String → String → ℝ := fun _ _ => 0

/-- A memory last accessed at time 0 with importance 0. -/
def memC10 : Memory := ⟨0, "u", "batman", .fact, "likes tea", 0, 0, 0, 0, "s1", "m1"⟩

/-! ## Budget accounting lemmas -/

theorem takeWithinBudget_sum_le (l : List BufMsg) :
    ∀ b : ℕ, ((takeWithinBudget l b).map (fun m => m.tokens)).sum ≤ b := by
  induction l with
  | nil => intro b; simp [takeWithinBudget]
  | cons m rest ih =>
      intro b
      by_cases h : m.tokens ≤ b
      · have := ih (b - m.tokens)
        simp [takeWithinBudget, h]
        omega
      · simp [takeWithinBudget, h]

theorem get_recent_messages_tokens_le (buffer : List BufMsg) (b : ℕ) :
    bufferTokens (get_recent_messages buffer b) ≤ b := by
  unfold bufferTokens get_recent_messages
  rw [List.map_reverse, List.sum_reverse]
  exact takeWithinBudget_sum_le _ b

/-- C1 counterexample: `assemble_context` has no `token_budget` parameter (the
budget is the hardcoded 4000) and reserves only nominal costs for the fixed
sections without measuring or truncating them, so a 5000-token character
profile yields a bundle of 5000 tokens, over the 4000-token budget. -/
theorem C1_counterexample : 4000 < totalTokens (assemble_context envC1) := by
  decide

/-- C1 (amended): `assemble_context` takes no `token_budget` argument and
works against the fixed internal budget of 4000 tokens; provided every
fixed-reservation section actually costs no more than its reservation
(profile ≤ 500, user profile ≤ 200, last-session summary ≤ 200, retrieved
memories ≤ 300, working memory ≤ 300), the bundle's token counts sum to at
most 4000, because the raw message buffer is capped by the remaining
budget. -/
theorem C1_amended_budget_bound (env : AssembleEnv)
    (h1 : env.profile_tokens ≤ 500) (h2 : env.user_profile_tokens ≤ 200)
    (h3 : ∀ t n, env.last_session = some (t, n) → n ≤ 200)
    (h4 : env.memories_tokens ≤ 300) (h5 : env.working_memory_tokens ≤ 300) :
    totalTokens (assemble_context env) ≤ 4000 := by
  rcases hls : env.last_session with _ | ⟨t, n⟩ <;>
    by_cases hc : 10 < env.session_message_count <;>
      simp [assemble_context, totalTokens, hls, hc]
  · have hb := get_recent_messages_tokens_le env.buffer 2700
    omega
  · have hb := get_recent_messages_tokens_le env.buffer 3000
    omega
  · have hn := h3 t n hls
    have hb := get_recent_messages_tokens_le env.buffer 2500
    omega
  · have hn := h3 t n hls
    have hb := get_recent_messages_tokens_le env.buffer 2800
    omega

theorem C1_amended_budget_bound_witness :
    envC1w.profile_tokens ≤ 500 ∧ totalTokens (assemble_context envC1w) ≤ 4000 :=
  ⟨by decide,
   C1_amended_budget_bound envC1w (by decide) (by decide)
     (by intro t n h; simp [envC1w] at h) (by decide) (by decide)⟩

/-- C4 counterexample: with a 4500-token character profile — the fixed
sections alone exceed the 4000-token budget — `assemble_context` performs no
truncation: the persona section appears in full (4500 tokens) and the bundle
total exceeds the budget, and there is no `token_budget` parameter on which
a `token_budget = 0` boundary could be exercised. -/
theorem C4_counterexample :
    (assemble_context envC4).head? =
        some ⟨"character_profile", "oversized persona", 4500⟩
      ∧ 4000 < totalTokens (assemble_context envC4) :=
  ⟨rfl, by decide⟩

/-- C4 (amended): the persona section is never dropped — for every snapshot,
the bundle returned by `assemble_context` starts with the character-profile
section, carrying the full untruncated profile; no truncation happens when
the budget is exceeded, and no `token_budget` parameter exists. -/
theorem C4_amended_persona_never_dropped (env : AssembleEnv) :
    (assemble_context env).head? =
      some ⟨"character_profile", env.profile_text, env.profile_tokens⟩ := by
  simp [assemble_context]

/-- C5 counterexample: in an open session with 12 messages — not more than
the claimed raw-buffer capacity of 15 — `assemble_context` nevertheless
includes the working-memory section, because the code's inclusion test is
the fixed constant `session_message_count > 10`, not the buffer capacity. -/
theorem C5_counterexample :
    "working_memory" ∈ (assemble_context envC5).map (fun s => s.label)
      ∧ envC5.session_message_count ≤ 15 :=
  ⟨by decide, by decide⟩

/-- C5 (amended): for every snapshot, the working-memory summary section is
included in the assembled bundle if and only if the open session's message
count exceeds 10, the fixed threshold hard-coded in `assemble_context`,
irrespective of any configured buffer capacity. -/
theorem C5_amended_working_memory_iff (env : AssembleEnv) :
    ("working_memory" ∈ (assemble_context env).map (fun s => s.label)) ↔
      10 < env.session_message_count := by
  rcases hls : env.last_session with _ | ts <;>
    by_cases hc : 10 < env.session_message_count <;>
      simp [assemble_context, hls, hc]

/-! ## Extraction idempotence lemmas -/

theorem keyMatches_self (h : String → ℕ) (m : Memory) : keyMatches h m m = true := by
  simp [keyMatches]

theorem hasKey_append_left (h : String → ℕ) (s extra : List Memory) (m : Memory)
    (hk : hasKey h s m = true) : hasKey h (s ++ extra) m = true := by
  unfold hasKey at *
  rw [List.any_append, hk]
  rfl

theorem hasKey_insertMemory_mono (h : String → ℕ) (s : List Memory) (m' m : Memory)
    (hk : hasKey h s m = true) : hasKey h (insertMemory h s m') m = true := by
  unfold insertMemory
  split
  · exact hk
  · exact hasKey_append_left h s [m'] m hk

theorem hasKey_insertMemory_self (h : String → ℕ) (s : List Memory) (m : Memory) :
    hasKey h (insertMemory h s m) m = true := by
  unfold insertMemory
  split
  · assumption
  · simp [hasKey, List.any_append, keyMatches_self]

theorem hasKey_foldl_mono (h : String → ℕ) (l : List Memory) :
    ∀ s m, hasKey h s m = true →
      hasKey h (l.foldl (insertMemory h) s) m = true := by
  induction l with
  | nil => intro s m hk; simpa using hk
  | cons x rest ih =>
      intro s m hk
      rw [List.foldl_cons]
      exact ih _ m (hasKey_insertMemory_mono h s x m hk)

theorem hasKey_foldl_self (h : String → ℕ) (l : List Memory) :
    ∀ s, ∀ m ∈ l, hasKey h (l.foldl (insertMemory h) s) m = true := by
  induction l with
  | nil => intro s m hm; cases hm
  | cons x rest ih =>
      intro s m hm
      rw [List.foldl_cons]
      rcases List.mem_cons.mp hm with rfl | hm'
      · exact hasKey_foldl_mono h rest _ m (hasKey_insertMemory_self h s m)
      · exact ih _ m hm'

theorem foldl_insertMemory_noop (h : String → ℕ) (l : List Memory) :
    ∀ s, (∀ m ∈ l, hasKey h s m = true) → l.foldl (insertMemory h) s = s := by
  induction l with
  | nil => intro s _; rfl
  | cons x rest ih =>
      intro s hall
      rw [List.foldl_cons]
      have hx : insertMemory h s x = s := by
        unfold insertMemory
        rw [if_pos (hall x (List.mem_cons_self x rest))]
      rw [hx]
      exact ih s fun m hm => hall m (List.mem_cons_of_mem x hm)

/-- C3: running `extract` twice on an identical exchange with the same source
identifiers yields the same Memory store as running it once — the second run
creates no rows, because every derived row's `(source_message_id,
content_hash)` key is already present after the first run. -/
theorem C3_extraction_idempotent (h : String → ℕ) (mk : Exchange → List Memory)
    (store : List Memory) (e : Exchange) :
    extract h mk (extract h mk store e) e = extract h mk store e := by
  unfold extract
  exact foldl_insertMemory_noop h (mk e) _
    fun m hm => hasKey_foldl_self h (mk e) store m hm

/-! ## Ranking order lemmas -/

theorem rankRel_antisymm_id {α : Type} [LinearOrder α] (score : Memory → α)
    {a b : Memory} (h1 : rankRel score a b) (h2 : rankRel score b a) :
    a.id = b.id := by
  rcases h1 with h1 | ⟨e1, h1'⟩ <;> rcases h2 with h2 | ⟨e2, h2'⟩
  · exact absurd h1 (lt_asymm h2)
  · exact absurd (e2 ▸ h1) (lt_irrefl _)
  · exact absurd (e1 ▸ h2) (lt_irrefl _)
  · rcases h1' with hc | ⟨ec, hid⟩ <;> rcases h2' with hc' | ⟨ec', hid'⟩ <;> omega

theorem sorted_perm_eq_of_id_inj {α : Type} [LinearOrder α] (score : Memory → α) :
    ∀ l l' : List Memory, l.Perm l' →
      List.Sorted (rankRel score) l → List.Sorted (rankRel score) l' →
      (∀ a ∈ l, ∀ b ∈ l, a.id = b.id → a = b) → l = l' := by
  intro l
  induction l with
  | nil =>
      intro l' hp _ _ _
      exact (List.Perm.eq_nil hp.symm).symm
  | cons a t ih =>
      intro l' hp hs hs' hinj
      cases l' with
      | nil => exact absurd hp.eq_nil (by simp)
      | cons b t' =>
          have hab : a = b := by
            by_cases hcase : a = b
            · exact hcase
            · have hbmem : b ∈ a :: t := hp.mem_iff.mpr (List.mem_cons_self b t')
              have hamem : a ∈ b :: t' := hp.mem_iff.mp (List.mem_cons_self a t)
              have hbin : b ∈ t := by
                rcases List.mem_cons.mp hbmem with hh | hh
                · exact absurd hh.symm hcase
                · exact hh
              have hain : a ∈ t' := by
                rcases List.mem_cons.mp hamem with hh | hh
                · exact absurd hh hcase
                · exact hh
              have r1 : rankRel score a b := (List.sorted_cons.mp hs).1 b hbin
              have r2 : rankRel score b a := (List.sorted_cons.mp hs').1 a hain
              exact hinj a (List.mem_cons_self a t) b hbmem
                (rankRel_antisymm_id score r1 r2)
          subst hab
          have hteq : t = t' :=
            ih t' hp.cons_inv (List.sorted_cons.mp hs).2 (List.sorted_cons.mp hs').2
              fun x hx y hy hxy =>
                hinj x (List.mem_cons_of_mem a hx) y (List.mem_cons_of_mem a hy) hxy
          rw [hteq]

/-- C6: the ranker yields exactly one ordering for a fixed (memory-set,
query, now) snapshot: the ranked list is sorted by score descending with
ties broken by `created_at` descending and then by `id`; any two
presentations of the same memory set (with distinguishable records) rank to
the same list; and of two memories with identical scores, the one created
later ranks first, whichever way the pair is presented. -/
theorem C6_ranker_deterministic {α : Type} [LinearOrder α] (score : Memory → α) :
    (∀ ms : List Memory, List.Sorted (rankRel score) (rankMemories score ms))
    ∧ (∀ ms ms' : List Memory, ms.Perm ms' →
        (∀ a ∈ ms, ∀ b ∈ ms, a.id = b.id → a = b) →
        rankMemories score ms = rankMemories score ms')
    ∧ (∀ a b : Memory, score a = score b → a.created_at < b.created_at →
        rankMemories score [a, b] = [b, a] ∧ rankMemories score [b, a] = [b, a]) := by
  refine ⟨fun ms => List.sorted_insertionSort _ ms, ?_, ?_⟩
  · intro ms ms' hperm hinj
    apply sorted_perm_eq_of_id_inj score
    · exact (List.perm_insertionSort _ ms).trans
        (hperm.trans (List.perm_insertionSort _ ms').symm)
    · exact List.sorted_insertionSort _ ms
    · exact List.sorted_insertionSort _ ms'
    · intro x hx y hy hxy
      exact hinj x ((List.perm_insertionSort _ ms).mem_iff.mp hx)
        y ((List.perm_insertionSort _ ms).mem_iff.mp hy) hxy
  · intro a b hscore hcreated
    have hnot : ¬ rankRel score a b := by
      rintro (hlt | ⟨_, hc | ⟨ec, _⟩⟩)
      · exact absurd (hscore ▸ hlt) (lt_irrefl _)
      · omega
      · omega
    have hyes : rankRel score b a := Or.inr ⟨hscore.symm, Or.inl hcreated⟩
    constructor
    · simp [rankMemories, List.insertionSort, List.orderedInsert, hnot, hyes]
    · simp [rankMemories, List.insertionSort, List.orderedInsert, hnot, hyes]

theorem C6_ranker_deterministic_witness :
    rankMemories scoreC6 [memC6a, memC6b] = [memC6b, memC6a]
      ∧ rankMemories scoreC6 [memC6b, memC6a] = [memC6b, memC6a] :=
  (C6_ranker_deterministic scoreC6).2.2 memC6a memC6b rfl (by decide)

/-- C7: `maybeUpdate` is a no-op whenever fewer than five messages have
arrived since the last summary rewrite; when it fires it rewrites the
working memory to the summary the LLM folds from the previous working
memory and the last five messages only — never the whole transcript —
bounded to 100 words, records the rewrite point, and leaves the transcript
unchanged. -/
theorem C7_maybeUpdate_contract (llm : List String → List String → List String)
    (s : WSession) :
    (s.message_count - s.lastSummarizedAt < 5 → maybeUpdate llm s = s)
    ∧ (5 ≤ s.message_count - s.lastSummarizedAt →
        (maybeUpdate llm s).working_memory =
            (llm s.working_memory (lastN 5 s.messages)).take 100
        ∧ (maybeUpdate llm s).working_memory.length ≤ 100
        ∧ (maybeUpdate llm s).messages = s.messages
        ∧ (maybeUpdate llm s).lastSummarizedAt = s.message_count) := by
  constructor
  · intro hlt
    unfold maybeUpdate
    rw [if_pos hlt]
  · intro hge
    have hn : ¬ s.message_count - s.lastSummarizedAt < 5 := not_lt.mpr hge
    unfold maybeUpdate
    rw [if_neg hn]
    exact ⟨rfl, List.length_take_le 100 _, rfl, rfl⟩

theorem C7_maybeUpdate_contract_witness :
    maybeUpdate llmC7 sC7noop = sC7noop
      ∧ (maybeUpdate llmC7 sC7fire).working_memory.length ≤ 100 :=
  ⟨(C7_maybeUpdate_contract llmC7 sC7noop).1 (by decide),
   ((C7_maybeUpdate_contract llmC7 sC7fire).2 (by decide)).2.1⟩

/-- C8: `sendMessage` appends the user message and then the streamed
assistant message at the end of the session's message list, reordering
nothing; when the clock times are at least every stored timestamp and
non-decreasing between the two appends, the message list stays
non-decreasing in timestamp order. -/
theorem C8_sendMessage_append_ordered (s : FSession)
    (message streamed charName : String) (t1 t2 : ℕ)
    (sid : Option String) (mem tok : Option ℕ)
    (hpast : ∀ m ∈ s.messages, m.timestamp ≤ t1) (ht : t1 ≤ t2)
    (hsorted : List.Sorted tsLE s.messages) :
    (sendMessage s message streamed charName t1 t2 sid mem tok).messages =
        s.messages ++
          [⟨"user", message, t1, charName⟩, ⟨"assistant", streamed, t2, charName⟩]
    ∧ List.Sorted tsLE
        (sendMessage s message streamed charName t1 t2 sid mem tok).messages := by
  have hmsg : (sendMessage s message streamed charName t1 t2 sid mem tok).messages =
      s.messages ++
        [⟨"user", message, t1, charName⟩, ⟨"assistant", streamed, t2, charName⟩] := by
    simp [sendMessage, appendUserMessage, completeAssistantMessage]
  refine ⟨hmsg, ?_⟩
  rw [hmsg]
  unfold List.Sorted at *
  rw [List.pairwise_append]
  refine ⟨hsorted, ?_, ?_⟩
  · constructor
    · intro y hy
      rcases List.mem_singleton.mp hy with rfl
      exact ht
    · simp
  · intro x hx y hy
    rcases List.mem_cons.mp hy with rfl | hy'
    · exact hpast x hx
    · rcases List.mem_singleton.mp hy' with rfl
      exact le_trans (hpast x hx) ht

theorem C8_sendMessage_append_ordered_witness :
    (sendMessage sC8 "hi" "hello there" "Batman" 1 2 none none none).messages =
        [⟨"user", "hi", 1, "Batman"⟩, ⟨"assistant", "hello there", 2, "Batman"⟩]
      ∧ List.Sorted tsLE
          (sendMessage sC8 "hi" "hello there" "Batman" 1 2 none none none).messages := by
  have h := C8_sendMessage_append_ordered sC8 "hi" "hello there" "Batman" 1 2
    none none none (by intro m hm; simp [sC8] at hm) (by decide) (by simp [sC8])
  simpa [sC8] using h

/-- C9: scoring and ranking never mutate the memory records: the ranked list
returned for any (memory-set, query, now) is a permutation of the input
store — every record appears exactly as it went in, with `importance`,
`access_count` and `last_accessed` untouched — so persisting access updates
is left to the caller. -/
theorem C9_ranker_no_mutation (sem : String → String → ℝ) (query : String)
    (now : ℤ) (ms : List Memory) :
    (rankMemories (fun m => calculate_memory_relevance sem m query now) ms).Perm ms
    ∧ ∀ m : Memory,
        m ∈ rankMemories (fun m => calculate_memory_relevance sem m query now) ms
          ↔ m ∈ ms := by
  constructor
  · exact List.perm_insertionSort _ ms
  · intro m
    exact (List.perm_insertionSort _ ms).mem_iff

/-- C10: whenever the semantic similarity and the memory's importance lie in
[0,1] and the memory was last accessed no later than `now`, the relevance
score lies in [0,1]: the four components are each in [0,1] and the weights
0.4 + 0.2 + 0.3 + 0.1 sum to 1. -/
theorem C10_relevance_bounds (sem : String → String → ℝ) (m : Memory)
    (q : String) (t : ℤ)
    (hs0 : 0 ≤ sem m.content q) (hs1 : sem m.content q ≤ 1)
    (hi0 : 0 ≤ m.importance) (hi1 : m.importance ≤ 1)
    (hage : m.last_accessed ≤ t) :
    0 ≤ calculate_memory_relevance sem m q t
      ∧ calculate_memory_relevance sem m q t ≤ 1 := by
  have hd : (0 : ℤ) ≤ daysOld t m.last_accessed := by
    unfold daysOld
    exact Int.fdiv_nonneg (by omega) (by norm_num)
  have hdr : (0 : ℝ) ≤ ((daysOld t m.last_accessed : ℤ) : ℝ) / 7 := by
    have : (0 : ℝ) ≤ ((daysOld t m.last_accessed : ℤ) : ℝ) := by exact_mod_cast hd
    linarith
  have hr0 : (0 : ℝ) ≤ (0.5 : ℝ) ^ (((daysOld t m.last_accessed : ℤ) : ℝ) / 7) :=
    Real.rpow_nonneg (by norm_num) _
  have hr1 : (0.5 : ℝ) ^ (((daysOld t m.last_accessed : ℤ) : ℝ) / 7) ≤ 1 :=
    Real.rpow_le_one (by norm_num) (by norm_num) hdr
  have hf0 : (0 : ℝ) ≤ min ((m.access_count : ℝ) / 10) 1.0 :=
    le_min (by positivity) (by norm_num)
  have hf1 : min ((m.access_count : ℝ) / 10) 1.0 ≤ 1 :=
    le_trans (min_le_right _ _) (by norm_num)
  have him0 : (0 : ℝ) ≤ (m.importance : ℝ) := by exact_mod_cast hi0
  have him1 : (m.importance : ℝ) ≤ 1 := by exact_mod_cast hi1
  unfold calculate_memory_relevance
  constructor
  · dsimp only
    nlinarith [hs0, hr0, him0, hf0]
  · dsimp only
    nlinarith [hs1, hr1, him1, hf1]

theorem C10_relevance_bounds_witness :
    (0 : ℝ) ≤ semC10 memC10.content "query" ∧ memC10.last_accessed ≤ 0
      ∧ (0 ≤ calculate_memory_relevance semC10 memC10 "query" 0
          ∧ calculate_memory_relevance semC10 memC10 "query" 0 ≤ 1) :=
  ⟨by norm_num [semC10], by decide,
   C10_relevance_bounds semC10 memC10 "query" 0 (by norm_num [semC10])
     (by norm_num [semC10]) (by decide) (by decide) (by decide)⟩
